import Mathlib

/-!
Verification of the EduVerify blockchain core (src/script.js).

The embedding is parameterized over the external SHA-256 digest function
`H : String → String` (`CryptoJS.SHA256(s).toString()` in the source), which
the spec treats as an environment-supplied deterministic, collision-resistant
fingerprint.  Where a claim needs collision-freedom, it is hypothesized as
injectivity of `H`.

JavaScript `JSON.stringify` on the payloads used by the program (a plain
string for the genesis block, or the certificate object with keys
student, course, institution, issueDate, fileHash in insertion order) is
modelled by `stringify`, including the escaping of `"` and `\` inside
strings.
-/

namespace EduVerify

/-- The certificate payload object assembled by the issue handler
(src/script.js lines 92-98): keys in insertion order
student, course, institution, issueDate, fileHash. -/
structure CertData where
  student : String
  course : String
  institution : String
  issueDate : String
  fileHash : String
deriving DecidableEq, Repr

/-- A block's `data` field is either a plain string (the genesis block's
"Genesis Block") or a certificate object. -/
inductive Payload where
  | str (s : String)
  | cert (c : CertData)
deriving DecidableEq, Repr

/-- JSON string escaping for one character, as `JSON.stringify` does for
the quote and backslash characters. -/
def escChar (c : Char) : List Char :=
  if c = '"' ∨ c = '\\' then ['\\', c] else [c]

/-- Escape a whole character list. -/
def escL (l : List Char) : List Char := l.flatMap escChar

/-- JSON text between the opening brace and the first value. -/
def sepStudent : List Char := "\"student\":\"".data

/-- JSON text between the first value and the second. -/
def sepCourse : List Char := ",\"course\":\"".data

/-- JSON text between the second value and the third. -/
def sepInstitution : List Char := ",\"institution\":\"".data

/-- JSON text between the third value and the fourth. -/
def sepIssueDate : List Char := ",\"issueDate\":\"".data

/-- JSON text between the fourth value and the fifth. -/
def sepFileHash : List Char := ",\"fileHash\":\"".data

/-- The JSON text of the certificate object, written in the exact shape
`JSON.stringify` produces: `{"student":"…","course":"…","institution":"…",
"issueDate":"…","fileHash":"…"}`. -/
def certJson (c : CertData) : List Char :=
  '{' :: (sepStudent ++ (escL c.student.data ++ ('"' :: (sepCourse ++
    (escL c.course.data ++ ('"' :: (sepInstitution ++ (escL c.institution.data ++
    ('"' :: (sepIssueDate ++ (escL c.issueDate.data ++ ('"' :: (sepFileHash ++
    (escL c.fileHash.data ++ ('"' :: '}' :: [])))))))))))))))

/-- Character list of `JSON.stringify(data)`. -/
def stringifyData : Payload → List Char
  | .str s => '"' :: (escL s.data ++ ('"' :: []))
  | .cert c => certJson c

/-- The string `JSON.stringify(data)`. -/
def stringify (p : Payload) : String := ⟨stringifyData p⟩

/-- One record of the ledger (class `Block`, src/script.js lines 3-17).
`hash` is the stored digest field; the other four fields are the digest's
preimage components. -/
structure Block where
  index : Nat
  timestamp : String
  data : Payload
  previousHash : String
  hash : String
deriving DecidableEq, Repr

/-- The digest preimage: `this.index + this.previousHash + this.timestamp +
JSON.stringify(this.data)` (src/script.js line 14; JavaScript `+` on a
number and strings concatenates). -/
def hashInput (b : Block) : String :=
  toString b.index ++ b.previousHash ++ b.timestamp ++ stringify b.data

/-- Model of `calculateHash()` (src/script.js lines 12-16): the digest of the
block's current fields.  Never reads the stored `hash` field. -/
def calculateHash (H : String → String) (b : Block) : String :=
  H (hashInput b)

/-- The `Block` constructor (src/script.js lines 4-10): stores the four
fields and sets `hash` to `calculateHash()` of them.  `previousHash`
defaults to `""` as in the source. -/
def Block.make (H : String → String) (index : Nat) (timestamp : String)
    (data : Payload) (previousHash : String := "") : Block :=
  let b0 : Block := { index := index, timestamp := timestamp, data := data,
                      previousHash := previousHash, hash := "" }
  { b0 with hash := calculateHash H b0 }

/-- The ledger (class `Blockchain`): an ordered list of blocks. -/
structure Blockchain where
  chain : List Block
deriving DecidableEq, Repr

/-- Model of `createGenesisBlock()` (src/script.js lines 24-26). -/
def createGenesisBlock (H : String → String) (ts : String) : Block :=
  Block.make H 0 ts (.str "Genesis Block") "0"

/-- The `Blockchain` constructor (src/script.js lines 20-22): a fresh
ledger holds exactly the genesis block. -/
def Blockchain.fresh (H : String → String) (ts : String) : Blockchain :=
  ⟨[createGenesisBlock H ts]⟩

/-- Model of `getLatestBlock()` (src/script.js lines 28-30):
`this.chain[this.chain.length - 1]`; on an empty chain the JavaScript
expression is `undefined`, modelled as `none`. -/
def getLatestBlock (bc : Blockchain) : Option Block :=
  bc.chain[bc.chain.length - 1]?

/-- Model of `addBlock(newBlock)` (src/script.js lines 32-36): overwrite the new
block's `previousHash` with the latest block's `hash`, recompute its
`hash`, push.  On an empty chain the source would dereference `undefined`,
modelled as `none`. -/
def addBlock (H : String → String) (bc : Blockchain) (newBlock : Block) :
    Option Blockchain :=
  (getLatestBlock bc).map (fun latest =>
    let linked := { newBlock with previousHash := latest.hash }
    let hashed := { linked with hash := calculateHash H linked }
    ⟨bc.chain ++ [hashed]⟩)

/-- The issue handler's append (src/script.js lines 100-101):
`new Block(getLatestBlock().index + 1, ts, data)` then `addBlock`. -/
def appendRecord (H : String → String) (bc : Blockchain) (ts : String)
    (data : Payload) : Option Blockchain :=
  (getLatestBlock bc).bind (fun latest =>
    addBlock H bc (Block.make H (latest.index + 1) ts data))

/-- A sequence of appends through the issue handler. -/
def appendAll (H : String → String) (bc : Blockchain) :
    List (String × Payload) → Option Blockchain
  | [] => some bc
  | (ts, d) :: rest =>
    (appendRecord H bc ts d).bind (fun bc2 => appendAll H bc2 rest)

/-- The loop body of `isChainValid()` (src/script.js lines 38-46), walking
with the previous block in hand; returns `false` at the first violated
check. -/
def validFrom (H : String → String) : Block → List Block → Bool
  | _, [] => true
  | prev, b :: rest =>
    if b.hash ≠ calculateHash H b then false
    else if b.previousHash ≠ prev.hash then false
    else validFrom H b rest

/-- Model of `isChainValid()` (src/script.js lines 38-46): the loop runs `i` from 1
to `chain.length - 1`. -/
def isChainValid (H : String → String) (bc : Blockchain) : Bool :=
  match bc.chain with
  | [] => true
  | b :: rest => validFrom H b rest

/-- The same walk as `validFrom`, additionally reporting the index of the
first violated check (the loop counter `i` at the first early `return
false`). -/
def firstInvalidFrom (H : String → String) : Nat → Block → List Block → Option Nat
  | _, _, [] => none
  | i, prev, b :: rest =>
    if b.hash ≠ calculateHash H b then some i
    else if b.previousHash ≠ prev.hash then some i
    else firstInvalidFrom H (i + 1) b rest

/-- The position at which `isChainValid()`'s loop first returns `false`,
`none` when the chain is valid. -/
def firstInvalidPos (H : String → String) (bc : Blockchain) : Option Nat :=
  match bc.chain with
  | [] => none
  | b :: rest => firstInvalidFrom H 1 b rest

/-- Outcome of the single-certificate verification handler. -/
inductive VerifyResult where
  | authentic
  | tampered
  | positionOutOfRange
deriving DecidableEq, Repr

/-- The fingerprint embedded in a payload: `data.fileHash` is `undefined`
(`none`) on a plain-string payload. -/
def dataFileHash : Payload → Option String
  | .str _ => none
  | .cert c => some c.fileHash

/-- The verify-certificate handler (src/script.js lines 127-157): reject
positions outside `0 < blockNumber < chain.length`; otherwise compare the
freshly computed fingerprint of the presented file with
`chain[blockNumber].data.fileHash` and report AUTHENTIC or TAMPERED as an
ordinary result.  A string comparison against `undefined` is `false` in
JavaScript, hence `tampered` on a payload with no `fileHash` field. -/
def verifyRecord (bc : Blockchain) (blockNumber : Nat)
    (uploadedFileHash : String) : VerifyResult :=
  if blockNumber ≤ 0 ∨ blockNumber ≥ bc.chain.length then .positionOutOfRange
  else
    match bc.chain[blockNumber]? with
    | none => .tampered
    | some b =>
      match dataFileHash b.data with
      | none => .tampered
      | some stored => if uploadedFileHash = stored then .authentic else .tampered

/-! ### A decoder for `stringify`, used only to prove it injective -/

/-- Undo `escL`. -/
def unesc : List Char → List Char
  | [] => []
  | ['\\'] => []
  | '\\' :: d :: rest => d :: unesc rest
  | c :: rest => c :: unesc rest

/-- Split an escaped region at the first unescaped quote: returns the
escaped text before it and the remainder after it. -/
def splitEsc : List Char → List Char × List Char
  | [] => ([], [])
  | ['\\'] => (['\\'], [])
  | '\\' :: d :: rest => ('\\' :: d :: (splitEsc rest).1, (splitEsc rest).2)
  | '"' :: rest => ([], rest)
  | c :: rest => (c :: (splitEsc rest).1, (splitEsc rest).2)

/-- Strip a literal off the front of a character list. -/
def stripLit : List Char → List Char → Option (List Char)
  | [], l => some l
  | _ :: _, [] => none
  | p :: ps, c :: cs => if c = p then stripLit ps cs else none

/-- Left inverse of `stringifyData`. -/
def parsePayload (l : List Char) : Option Payload :=
  match l with
  | [] => none
  | c :: rest =>
    if c = '"' then some (.str ⟨unesc (splitEsc rest).1⟩)
    else if c = '{' then
      (stripLit sepStudent rest).bind fun r1 =>
      let q1 := splitEsc r1
      (stripLit sepCourse q1.2).bind fun r2 =>
      let q2 := splitEsc r2
      (stripLit sepInstitution q2.2).bind fun r3 =>
      let q3 := splitEsc r3
      (stripLit sepIssueDate q3.2).bind fun r4 =>
      let q4 := splitEsc r4
      (stripLit sepFileHash q4.2).bind fun r5 =>
      let q5 := splitEsc r5
      some (.cert ⟨⟨unesc q1.1⟩, ⟨unesc q2.1⟩, ⟨unesc q3.1⟩, ⟨unesc q4.1⟩, ⟨unesc q5.1⟩⟩)
    else none

theorem escL_cons (c : Char) (l : List Char) :
    escL (c :: l) = escChar c ++ escL l := rfl

theorem unesc_bs (d : Char) (rest : List Char) :
    unesc ('\\' :: d :: rest) = d :: unesc rest := by
  simp [unesc]

theorem unesc_cons {c : Char} (hc : c ≠ '\\') (rest : List Char) :
    unesc (c :: rest) = c :: unesc rest := by
  cases rest with
  | nil => simp [unesc, hc]
  | cons d rest2 => simp [unesc, hc]

theorem splitEsc_bs (d : Char) (rest : List Char) :
    splitEsc ('\\' :: d :: rest) =
      ('\\' :: d :: (splitEsc rest).1, (splitEsc rest).2) := by
  simp [splitEsc]

theorem splitEsc_quote (rest : List Char) :
    splitEsc ('"' :: rest) = ([], rest) := by
  cases rest with
  | nil => simp [splitEsc]
  | cons d rest2 => simp [splitEsc]

theorem splitEsc_cons {c : Char} (hb : c ≠ '\\') (hq : c ≠ '"')
    (rest : List Char) :
    splitEsc (c :: rest) = (c :: (splitEsc rest).1, (splitEsc rest).2) := by
  cases rest with
  | nil => simp [splitEsc, hb, hq]
  | cons d rest2 => simp [splitEsc, hb, hq]

theorem unesc_escL (l : List Char) : unesc (escL l) = l := by
  induction l with
  | nil => rfl
  | cons c cs ih =>
    by_cases hc : c = '"' ∨ c = '\\'
    · have h1 : escL (c :: cs) = '\\' :: c :: escL cs := by
        rw [escL_cons, escChar, if_pos hc]; rfl
      rw [h1, unesc_bs, ih]
    · have h1 : escL (c :: cs) = c :: escL cs := by
        rw [escL_cons, escChar, if_neg hc]; rfl
      have hcb : c ≠ '\\' := fun h => hc (Or.inr h)
      rw [h1, unesc_cons hcb, ih]

theorem splitEsc_escL (l t : List Char) :
    splitEsc (escL l ++ '"' :: t) = (escL l, t) := by
  induction l with
  | nil => exact splitEsc_quote t
  | cons c cs ih =>
    by_cases hc : c = '"' ∨ c = '\\'
    · have h1 : escL (c :: cs) = '\\' :: c :: escL cs := by
        rw [escL_cons, escChar, if_pos hc]; rfl
      rw [h1]
      show splitEsc ('\\' :: c :: (escL cs ++ '"' :: t)) = _
      rw [splitEsc_bs, ih]
    · have h1 : escL (c :: cs) = c :: escL cs := by
        rw [escL_cons, escChar, if_neg hc]; rfl
      have hcb : c ≠ '\\' := fun h => hc (Or.inr h)
      have hcq : c ≠ '"' := fun h => hc (Or.inl h)
      rw [h1]
      show splitEsc (c :: (escL cs ++ '"' :: t)) = _
      rw [splitEsc_cons hcb hcq, ih]

theorem stripLit_append (p t : List Char) : stripLit p (p ++ t) = some t := by
  induction p with
  | nil => rfl
  | cons c cs ih => simp [stripLit, ih]

theorem someBind {α β : Type} (a : α) (f : α → Option β) :
    (Option.some a).bind f = f a := rfl

theorem parsePayload_quote (rest : List Char) :
    parsePayload ('"' :: rest) = some (.str ⟨unesc (splitEsc rest).1⟩) := rfl

theorem parsePayload_brace (rest : List Char) :
    parsePayload ('{' :: rest) =
      ((stripLit sepStudent rest).bind fun r1 =>
      let q1 := splitEsc r1
      (stripLit sepCourse q1.2).bind fun r2 =>
      let q2 := splitEsc r2
      (stripLit sepInstitution q2.2).bind fun r3 =>
      let q3 := splitEsc r3
      (stripLit sepIssueDate q3.2).bind fun r4 =>
      let q4 := splitEsc r4
      (stripLit sepFileHash q4.2).bind fun r5 =>
      let q5 := splitEsc r5
      some (.cert ⟨⟨unesc q1.1⟩, ⟨unesc q2.1⟩, ⟨unesc q3.1⟩, ⟨unesc q4.1⟩,
        ⟨unesc q5.1⟩⟩)) := rfl

theorem parsePayload_stringifyData (p : Payload) :
    parsePayload (stringifyData p) = some p := by
  cases p with
  | str s =>
    show parsePayload ('"' :: (escL s.data ++ ('"' :: []))) = some (Payload.str s)
    rw [parsePayload_quote, splitEsc_escL]
    show some (Payload.str ⟨unesc (escL s.data)⟩) = some (Payload.str s)
    rw [unesc_escL]
  | cert c =>
    show parsePayload (certJson c) = _
    rw [certJson, parsePayload_brace]
    simp only [stripLit_append, someBind, splitEsc_escL, unesc_escL]

theorem stringify_injective : Function.Injective stringify := by
  intro p q h
  have hd : stringifyData p = stringifyData q := congrArg String.data h
  have h2 := congrArg parsePayload hd
  rw [parsePayload_stringifyData, parsePayload_stringifyData] at h2
  exact Option.some.inj h2

theorem string_append_left_cancel {a b c : String} (h : a ++ b = a ++ c) :
    b = c := by
  have hd : a.data ++ b.data = a.data ++ c.data := congrArg String.data h
  have h2 := List.append_cancel_left hd
  cases b; cases c
  exact congrArg String.mk h2

/-- Two blocks agreeing on index, previousHash and timestamp whose digest
preimages agree have the same payload. -/
theorem hashInput_data_eq (u v : Block)
    (hidx : u.index = v.index) (hph : u.previousHash = v.previousHash)
    (hts : u.timestamp = v.timestamp)
    (h : hashInput u = hashInput v) : u.data = v.data := by
  unfold hashInput at h
  rw [hidx, hph, hts] at h
  exact stringify_injective (string_append_left_cancel h)

/-! ### Ledger invariants (spec §3, Invariants 1-3) -/

/-- Invariant 3: `records[i].position == i` for every index. -/
abbrev PosOk (ch : List Block) : Prop :=
  ∀ (i : Nat) (b : Block), ch[i]? = some b → b.index = i

/-- Invariant 1: `records[i].previousDigest == records[i-1].digest` for
`i > 0`. -/
abbrev LinkOk (ch : List Block) : Prop :=
  ∀ (i : Nat) (b prev : Block), 0 < i → ch[i]? = some b →
    ch[i - 1]? = some prev → b.previousHash = prev.hash

/-- Invariant 2 for non-genesis records: the stored digest equals the
digest recomputed from the record's current fields. -/
abbrev SelfOk (H : String → String) (ch : List Block) : Prop :=
  ∀ (i : Nat) (b : Block), 0 < i → ch[i]? = some b → b.hash = calculateHash H b

/-- The inductive invariant carried through a sequence of appends. -/
abbrev LedgerInv (H : String → String) (ch : List Block) : Prop :=
  ch ≠ [] ∧ PosOk ch ∧ LinkOk ch ∧ SelfOk H ch

theorem ledgerInv_fresh (H : String → String) (ts : String) :
    LedgerInv H (Blockchain.fresh H ts).chain := by
  refine ⟨by simp [Blockchain.fresh], ?_, ?_, ?_⟩
  · intro i b hb
    match i, hb with
    | 0, hb =>
      simp only [Blockchain.fresh, List.getElem?_cons_zero, Option.some.injEq] at hb
      subst hb
      rfl
    | i + 1, hb => simp [Blockchain.fresh] at hb
  · intro i b prev hi hb hp
    match i, hb with
    | i + 1, hb => simp [Blockchain.fresh] at hb
  · intro i b hi hb
    match i, hb with
    | i + 1, hb => simp [Blockchain.fresh] at hb

theorem appendRecord_spec (H : String → String) (bc : Blockchain) (ts : String)
    (d : Payload) (latest : Block) (hl : getLatestBlock bc = some latest) :
    ∃ newB : Block,
      appendRecord H bc ts d = some ⟨bc.chain ++ [newB]⟩ ∧
      newB.index = latest.index + 1 ∧
      newB.previousHash = latest.hash ∧
      newB.hash = calculateHash H newB ∧
      newB.timestamp = ts ∧ newB.data = d := by
  unfold appendRecord addBlock
  rw [hl]
  exact ⟨_, rfl, rfl, rfl, rfl, rfl, rfl⟩

theorem getLatestBlock_of_ne_nil (bc : Blockchain) (h : bc.chain ≠ []) :
    ∃ latest, getLatestBlock bc = some latest ∧
      bc.chain[bc.chain.length - 1]? = some latest := by
  have hlen : 0 < bc.chain.length := List.length_pos.mpr h
  have hlt : bc.chain.length - 1 < bc.chain.length := Nat.sub_lt hlen Nat.one_pos
  exact ⟨bc.chain[bc.chain.length - 1], List.getElem?_eq_getElem hlt,
    List.getElem?_eq_getElem hlt⟩

theorem ledgerInv_append (H : String → String) (ch : List Block)
    (hinv : LedgerInv H ch) (ts : String) (d : Payload) :
    ∃ ch2, appendRecord H ⟨ch⟩ ts d = some ⟨ch2⟩ ∧ LedgerInv H ch2 := by
  obtain ⟨hne, hpos, hlink, hself⟩ := hinv
  obtain ⟨latest, hl, hidx⟩ := getLatestBlock_of_ne_nil ⟨ch⟩ hne
  obtain ⟨newB, happ, hBidx, hBprev, hBhash, -, -⟩ :=
    appendRecord_spec H ⟨ch⟩ ts d latest hl
  have hlen : 0 < ch.length := List.length_pos.mpr hne
  have hlatest_idx : latest.index = ch.length - 1 := hpos _ _ hidx
  have hBidx2 : newB.index = ch.length := by omega
  refine ⟨ch ++ [newB], happ, ?_, ?_, ?_, ?_⟩
  · simp
  · intro i b hb
    rcases Nat.lt_trichotomy i ch.length with hlt | heq | hgt
    · rw [List.getElem?_append_left hlt] at hb
      exact hpos _ _ hb
    · subst heq
      rw [List.getElem?_concat_length] at hb
      cases hb
      exact hBidx2
    · rw [List.getElem?_eq_none (by simp; omega)] at hb
      cases hb
  · intro i b prev hi hb hp
    rcases Nat.lt_trichotomy i ch.length with hlt | heq | hgt
    · rw [List.getElem?_append_left hlt] at hb
      rw [List.getElem?_append_left (by omega)] at hp
      exact hlink _ _ _ hi hb hp
    · subst heq
      rw [List.getElem?_concat_length] at hb
      cases hb
      rw [List.getElem?_append_left (by omega)] at hp
      have hpl : prev = latest := by
        rw [hp] at hidx
        exact Option.some.inj hidx
      rw [hpl]
      exact hBprev
    · rw [List.getElem?_eq_none (by simp; omega)] at hb
      cases hb
  · intro i b hi hb
    rcases Nat.lt_trichotomy i ch.length with hlt | heq | hgt
    · rw [List.getElem?_append_left hlt] at hb
      exact hself _ _ hi hb
    · subst heq
      rw [List.getElem?_concat_length] at hb
      cases hb
      exact hBhash
    · rw [List.getElem?_eq_none (by simp; omega)] at hb
      cases hb

theorem appendAll_inv (H : String → String) (inputs : List (String × Payload)) :
    ∀ bc : Blockchain, LedgerInv H bc.chain →
      ∃ bc2, appendAll H bc inputs = some bc2 ∧ LedgerInv H bc2.chain := by
  induction inputs with
  | nil => exact fun bc hinv => ⟨bc, rfl, hinv⟩
  | cons td rest ih =>
    intro bc hinv
    obtain ⟨ch2, happ, hinv2⟩ := ledgerInv_append H bc.chain hinv td.1 td.2
    obtain ⟨bc3, happ3, hinv3⟩ := ih ⟨ch2⟩ hinv2
    refine ⟨bc3, ?_, hinv3⟩
    show (appendRecord H bc td.1 td.2).bind (fun bc2 => appendAll H bc2 rest) = some bc3
    have hbc : appendRecord H bc td.1 td.2 = some ⟨ch2⟩ := by
      cases bc
      exact happ
    rw [hbc]
    exact happ3

/-! ### Validity of a chain, index by index -/

/-- One violated check of the `isChainValid()` loop at index `i`: the
record exists, its predecessor exists, and either its stored digest is
stale (Invariant 2 fails) or its stored `previousHash` does not match the
predecessor's digest (Invariant 1 fails). -/
abbrev BadAt (H : String → String) (ch : List Block) (i : Nat) : Prop :=
  0 < i ∧ ∃ b prev : Block, ch[i]? = some b ∧ ch[i - 1]? = some prev ∧
    (b.hash ≠ calculateHash H b ∨ b.previousHash ≠ prev.hash)

theorem badAt_one (H : String → String) (prev b : Block) (rs : List Block) :
    BadAt H (prev :: b :: rs) 1 ↔
      (b.hash ≠ calculateHash H b ∨ b.previousHash ≠ prev.hash) := by
  constructor
  · rintro ⟨-, b2, p2, hb2, hp2, hbad⟩
    simp only [Nat.sub_self, List.getElem?_cons_succ, List.getElem?_cons_zero,
      Option.some.injEq] at hb2 hp2
    subst hb2
    subst hp2
    exact hbad
  · intro hbad
    exact ⟨Nat.one_pos, b, prev, by simp, by simp, hbad⟩

theorem badAt_cons_succ (H : String → String) (p b : Block) (rs : List Block)
    (j : Nat) :
    BadAt H (p :: b :: rs) (j + 2) ↔ BadAt H (b :: rs) (j + 1) := by
  constructor
  · rintro ⟨-, b2, p2, hb2, hp2, hbad⟩
    refine ⟨Nat.succ_pos j, b2, p2, ?_, ?_, hbad⟩
    · simpa using hb2
    · simpa using hp2
  · rintro ⟨-, b2, p2, hb2, hp2, hbad⟩
    refine ⟨by omega, b2, p2, ?_, ?_, hbad⟩
    · simpa using hb2
    · simpa using hp2

theorem badAt_zero (H : String → String) (ch : List Block) :
    ¬ BadAt H ch 0 := by
  rintro ⟨h0, -⟩
  exact Nat.lt_irrefl 0 h0

theorem badAt_singleton (H : String → String) (prev : Block) (i : Nat) :
    ¬ BadAt H [prev] i := by
  rintro ⟨hi, b, p, hb, -, -⟩
  match i, hi, hb with
  | i + 1, hi, hb => simp at hb

theorem validFrom_iff (H : String → String) :
    ∀ (rest : List Block) (prev : Block),
      validFrom H prev rest = true ↔ ∀ i : Nat, ¬ BadAt H (prev :: rest) i := by
  intro rest
  induction rest with
  | nil =>
    intro prev
    simp only [validFrom, true_iff]
    exact fun i => badAt_singleton H prev i
  | cons b rs ih =>
    intro prev
    by_cases h1 : b.hash = calculateHash H b
    · by_cases h2 : b.previousHash = prev.hash
      · have hv : validFrom H prev (b :: rs) = validFrom H b rs := by
          simp [validFrom, h1, h2]
        rw [hv, ih b]
        constructor
        · intro hno i
          match i with
          | 0 => exact badAt_zero H _
          | 1 =>
            rw [badAt_one]
            rintro (hbad | hbad)
            · exact hbad h1
            · exact hbad h2
          | j + 2 =>
            rw [badAt_cons_succ]
            exact hno (j + 1)
        · intro hno i
          match i with
          | 0 => exact badAt_zero H _
          | j + 1 =>
            have := hno (j + 2)
            rw [badAt_cons_succ] at this
            exact this
      · have hv : validFrom H prev (b :: rs) = false := by
          simp [validFrom, h2]
        rw [hv]
        refine iff_of_false (by decide) ?_
        intro hall
        exact hall 1 ((badAt_one H prev b rs).mpr (Or.inr h2))
    · have hv : validFrom H prev (b :: rs) = false := by
        simp [validFrom, h1]
      rw [hv]
      refine iff_of_false (by decide) ?_
      intro hall
      exact hall 1 ((badAt_one H prev b rs).mpr (Or.inl h1))

theorem isChainValid_iff_no_bad (H : String → String) (bc : Blockchain) :
    isChainValid H bc = true ↔ ∀ i : Nat, ¬ BadAt H bc.chain i := by
  cases bc with
  | mk chain =>
    cases chain with
    | nil =>
      simp only [isChainValid, true_iff]
      rintro i ⟨-, b, p, hb, -, -⟩
      simp at hb
    | cons b rest => exact validFrom_iff H rest b

theorem firstInvalidFrom_cons (H : String → String) (i : Nat) (prev b : Block)
    (rest : List Block) :
    firstInvalidFrom H i prev (b :: rest) =
      if b.hash ≠ calculateHash H b then some i
      else if b.previousHash ≠ prev.hash then some i
      else firstInvalidFrom H (i + 1) b rest := rfl

theorem firstInvalidFrom_shift (H : String → String) :
    ∀ (rest : List Block) (prev : Block) (i : Nat),
      firstInvalidFrom H (i + 1) prev rest =
        Option.map (· + 1) (firstInvalidFrom H i prev rest) := by
  intro rest
  induction rest with
  | nil => intro prev i; rfl
  | cons b rs ih =>
    intro prev i
    by_cases h1 : b.hash = calculateHash H b
    · by_cases h2 : b.previousHash = prev.hash
      · have e1 : firstInvalidFrom H (i + 1) prev (b :: rs) =
            firstInvalidFrom H (i + 1 + 1) b rs := by
          rw [firstInvalidFrom_cons, if_neg (not_not_intro h1),
            if_neg (not_not_intro h2)]
        have e2 : firstInvalidFrom H i prev (b :: rs) =
            firstInvalidFrom H (i + 1) b rs := by
          rw [firstInvalidFrom_cons, if_neg (not_not_intro h1),
            if_neg (not_not_intro h2)]
        rw [e1, e2, ih b (i + 1)]
      · rw [firstInvalidFrom_cons, firstInvalidFrom_cons,
          if_neg (not_not_intro h1), if_neg (not_not_intro h1),
          if_pos h2, if_pos h2]
        rfl
    · rw [firstInvalidFrom_cons, firstInvalidFrom_cons, if_pos h1, if_pos h1]
      rfl

theorem firstInvalidFrom_none_iff (H : String → String) :
    ∀ (rest : List Block) (prev : Block) (i : Nat),
      firstInvalidFrom H i prev rest = none ↔ validFrom H prev rest = true := by
  intro rest
  induction rest with
  | nil => intro prev i; simp [firstInvalidFrom, validFrom]
  | cons b rs ih =>
    intro prev i
    by_cases h1 : b.hash = calculateHash H b
    · by_cases h2 : b.previousHash = prev.hash
      · rw [firstInvalidFrom_cons, if_neg (not_not_intro h1),
          if_neg (not_not_intro h2)]
        have hv : validFrom H prev (b :: rs) = validFrom H b rs := by
          simp [validFrom, h1, h2]
        rw [hv]
        exact ih b (i + 1)
      · rw [firstInvalidFrom_cons, if_neg (not_not_intro h1), if_pos h2]
        have hv : validFrom H prev (b :: rs) = false := by
          simp [validFrom, h2]
        rw [hv]
        simp
    · rw [firstInvalidFrom_cons, if_pos h1]
      have hv : validFrom H prev (b :: rs) = false := by
        simp [validFrom, h1]
      rw [hv]
      simp

theorem firstInvalidFrom_spec (H : String → String) :
    ∀ (rest : List Block) (prev : Block) (k : Nat),
      firstInvalidFrom H 1 prev rest = some k →
        BadAt H (prev :: rest) k ∧ ∀ j, j < k → ¬ BadAt H (prev :: rest) j := by
  intro rest
  induction rest with
  | nil => intro prev k h; simp [firstInvalidFrom] at h
  | cons b rs ih =>
    intro prev k h
    by_cases h1 : b.hash = calculateHash H b
    · by_cases h2 : b.previousHash = prev.hash
      · have e : firstInvalidFrom H 1 prev (b :: rs) =
            firstInvalidFrom H (1 + 1) b rs := by
          rw [firstInvalidFrom_cons, if_neg (not_not_intro h1),
            if_neg (not_not_intro h2)]
        rw [e, firstInvalidFrom_shift H rs b 1] at h
        match hself : firstInvalidFrom H 1 b rs, h with
        | none, h => simp [hself] at h
        | some k2, h =>
          have hk : k = k2 + 1 := by
            simpa using h.symm
          subst hk
          obtain ⟨hbad2, hmin2⟩ := ih b k2 hself
          have hk2pos : 0 < k2 := hbad2.1
          constructor
          · match k2, hk2pos, hbad2 with
            | j + 1, hk2pos, hbad2 =>
              rw [badAt_cons_succ]
              exact hbad2
          · intro j hj
            match j with
            | 0 => exact badAt_zero H _
            | 1 =>
              rw [badAt_one]
              rintro (hbad | hbad)
              · exact hbad h1
              · exact hbad h2
            | m + 2 =>
              rw [badAt_cons_succ]
              exact hmin2 (m + 1) (by omega)
      · have e : firstInvalidFrom H 1 prev (b :: rs) = some 1 := by
          rw [firstInvalidFrom_cons, if_neg (not_not_intro h1), if_pos h2]
        rw [e] at h
        have hk : k = 1 := (Option.some.inj h).symm
        subst hk
        constructor
        · rw [badAt_one]
          exact Or.inr h2
        · intro j hj
          match j, hj with
          | 0, hj => exact badAt_zero H _
    · have e : firstInvalidFrom H 1 prev (b :: rs) = some 1 := by
        rw [firstInvalidFrom_cons, if_pos h1]
      rw [e] at h
      have hk : k = 1 := (Option.some.inj h).symm
      subst hk
      constructor
      · rw [badAt_one]
        exact Or.inl h1
      · intro j hj
        match j, hj with
        | 0, hj => exact badAt_zero H _

theorem firstInvalidPos_spec (H : String → String) (bc : Blockchain) (k : Nat)
    (h : firstInvalidPos H bc = some k) :
    BadAt H bc.chain k ∧ ∀ j, j < k → ¬ BadAt H bc.chain j := by
  cases bc with
  | mk chain =>
    cases chain with
    | nil => simp [firstInvalidPos] at h
    | cons b rest => exact firstInvalidFrom_spec H rest b k h

theorem firstInvalidPos_none_iff (H : String → String) (bc : Blockchain) :
    firstInvalidPos H bc = none ↔ isChainValid H bc = true := by
  cases bc with
  | mk chain =>
    cases chain with
    | nil => simp [firstInvalidPos, isChainValid]
    | cons b rest => exact firstInvalidFrom_none_iff H rest b 1

/-! ### Remaining helper lemmas -/

theorem validFrom_cons (H : String → String) (prev b : Block)
    (rest : List Block) :
    validFrom H prev (b :: rest) =
      if b.hash ≠ calculateHash H b then false
      else if b.previousHash ≠ prev.hash then false
      else validFrom H b rest := rfl

theorem valid3_iff (H : String → String) (b0 b1 b2 : Block) :
    isChainValid H ⟨[b0, b1, b2]⟩ = true ↔
      (b1.hash = calculateHash H b1 ∧ b1.previousHash = b0.hash ∧
       b2.hash = calculateHash H b2 ∧ b2.previousHash = b1.hash) := by
  show validFrom H b0 [b1, b2] = true ↔ _
  rw [validFrom_cons, validFrom_cons]
  by_cases h1 : b1.hash = calculateHash H b1
  · rw [if_neg (not_not_intro h1)]
    by_cases h2 : b1.previousHash = b0.hash
    · rw [if_neg (not_not_intro h2)]
      by_cases h3 : b2.hash = calculateHash H b2
      · rw [if_neg (not_not_intro h3)]
        by_cases h4 : b2.previousHash = b1.hash
        · rw [if_neg (not_not_intro h4)]
          exact iff_of_true rfl ⟨h1, h2, h3, h4⟩
        · rw [if_pos h4]
          exact iff_of_false (by decide) (fun hc => h4 hc.2.2.2)
      · rw [if_pos h3]
        exact iff_of_false (by decide) (fun hc => h3 hc.2.2.1)
    · rw [if_pos h2]
      exact iff_of_false (by decide) (fun hc => h2 hc.2.1)
  · rw [if_pos h1]
    exact iff_of_false (by decide) (fun hc => h1 hc.1)

theorem validFrom_hash_congr (H : String → String) (rest : List Block)
    (p1 p2 : Block) (h : p1.hash = p2.hash) :
    validFrom H p1 rest = validFrom H p2 rest := by
  cases rest with
  | nil => rfl
  | cons b rs => rw [validFrom_cons, validFrom_cons, h]

theorem one_concat_ne_zero_concat (x1 x2 x3 y1 y2 y3 : String) :
    toString (1 : Nat) ++ x1 ++ x2 ++ x3 ≠
      toString (0 : Nat) ++ y1 ++ y2 ++ y3 := by
  intro h
  have e1 : toString (1 : Nat) = "1" := rfl
  have e0 : toString (0 : Nat) = "0" := rfl
  rw [e1, e0] at h
  have hd := congrArg String.data h
  simp [String.data_append] at hd

/-! ### The claims -/

/-- C1: starting from a fresh Ledger, any sequence of appends through the
issue handler succeeds, and afterwards every index `i ≥ 1` satisfies
Invariant 1 (`records[i].previousDigest = records[i-1].digest`),
Invariant 3 (`records[i].position = i`) and Invariant 2 (the stored digest
equals the digest recomputed from the record's stored fields). -/
theorem c1_append_invariants (H : String → String) (ts0 : String)
    (inputs : List (String × Payload)) :
    ∃ bc : Blockchain,
      appendAll H (Blockchain.fresh H ts0) inputs = some bc ∧
      ∀ (i : Nat) (b prev : Block), 1 ≤ i →
        bc.chain[i]? = some b → bc.chain[i - 1]? = some prev →
        (b.previousHash = prev.hash ∧ b.index = i ∧
          b.hash = calculateHash H b) := by
  obtain ⟨bc2, happ, hne, hpos, hlink, hself⟩ :=
    appendAll_inv H inputs (Blockchain.fresh H ts0) (ledgerInv_fresh H ts0)
  exact ⟨bc2, happ, fun i b prev hi hb hp =>
    ⟨hlink i b prev hi hb hp, hpos i b hb, hself i b hi hb⟩⟩

/-- C2: `isChainValid()` walks records from index 1 on; it returns valid
exactly when no index violates Invariant 2 (stored digest is the
recomputed digest) or Invariant 1 (stored `previousHash` equals the
predecessor's digest), and its loop stops at the first violated index:
`firstInvalidPos` is the least index at which a check is violated, and it
is `none` exactly when `isChainValid()` returns valid. -/
theorem c2_validate_chain (H : String → String) (bc : Blockchain) :
    (isChainValid H bc = true ↔ ∀ i : Nat, ¬ BadAt H bc.chain i) ∧
    (∀ k : Nat, firstInvalidPos H bc = some k →
      BadAt H bc.chain k ∧ ∀ j, j < k → ¬ BadAt H bc.chain j) ∧
    (firstInvalidPos H bc = none ↔ isChainValid H bc = true) :=
  ⟨isChainValid_iff_no_bad H bc, fun k h => firstInvalidPos_spec H bc k h,
    firstInvalidPos_none_iff H bc⟩

/-- C3: on a valid 3-record chain, overwriting `records[1]`'s payload in
place (stored digest unchanged) with a different payload makes
`isChainValid()` report the chain invalid, the first violated check being
at position 1 — assuming the digest function is collision-free
(injective). -/
theorem c3_payload_tamper_detected (H : String → String)
    (hinj : Function.Injective H) (b0 b1 b2 : Block)
    (hvalid : isChainValid H ⟨[b0, b1, b2]⟩ = true)
    (p : Payload) (hp : p ≠ b1.data) :
    isChainValid H ⟨[b0, { b1 with data := p }, b2]⟩ = false ∧
    firstInvalidPos H ⟨[b0, { b1 with data := p }, b2]⟩ = some 1 := by
  obtain ⟨h1, -, -, -⟩ := (valid3_iff H b0 b1 b2).mp hvalid
  have hne : ({ b1 with data := p } : Block).hash ≠
      calculateHash H { b1 with data := p } := by
    intro heq
    have hH : H (hashInput { b1 with data := p }) = H (hashInput b1) := by
      calc H (hashInput { b1 with data := p })
          = ({ b1 with data := p } : Block).hash := heq.symm
        _ = b1.hash := rfl
        _ = H (hashInput b1) := h1
    have hdata := hashInput_data_eq { b1 with data := p } b1 rfl rfl rfl (hinj hH)
    exact hp hdata
  constructor
  · show validFrom H b0 [{ b1 with data := p }, b2] = false
    rw [validFrom_cons, if_pos hne]
  · show firstInvalidFrom H 1 b0 [{ b1 with data := p }, b2] = some 1
    rw [firstInvalidFrom_cons, if_pos hne]

/-- C4: on a valid 3-record chain produced by the ledger (indices 0 and 1
on the first two records, genesis self-consistent), removing `records[1]`
makes `isChainValid()` report the chain invalid, the first violated check
being at position 1, because the shifted record's stored `previousHash`
no longer matches its new predecessor's digest — assuming the digest
function is collision-free (injective). -/
theorem c4_removal_detected (H : String → String)
    (hinj : Function.Injective H) (b0 b1 b2 : Block)
    (hvalid : isChainValid H ⟨[b0, b1, b2]⟩ = true)
    (hg : b0.hash = calculateHash H b0)
    (hi0 : b0.index = 0) (hi1 : b1.index = 1) :
    isChainValid H ⟨[b0, b2]⟩ = false ∧
    firstInvalidPos H ⟨[b0, b2]⟩ = some 1 := by
  obtain ⟨h1, h2, h3, h4⟩ := (valid3_iff H b0 b1 b2).mp hvalid
  have key : b2.previousHash ≠ b0.hash := by
    rw [h4]
    intro heq
    have hH : H (hashInput b1) = H (hashInput b0) := by
      calc H (hashInput b1) = b1.hash := h1.symm
        _ = b0.hash := heq
        _ = H (hashInput b0) := hg
    have hin := hinj hH
    unfold hashInput at hin
    rw [hi0, hi1] at hin
    exact one_concat_ne_zero_concat _ _ _ _ _ _ hin
  constructor
  · show validFrom H b0 [b2] = false
    rw [validFrom_cons, if_neg (not_not_intro h3), if_pos key]
  · show firstInvalidFrom H 1 b0 [b2] = some 1
    rw [firstInvalidFrom_cons, if_neg (not_not_intro h3), if_pos key]

/-- C5: a fresh ledger has exactly one record, the genesis block, at
position 0 with `previousHash` the sentinel `"0"`, and `isChainValid()`
on it returns valid. -/
theorem c5_genesis (H : String → String) (ts : String) :
    (Blockchain.fresh H ts).chain = [createGenesisBlock H ts] ∧
    (createGenesisBlock H ts).index = 0 ∧
    (createGenesisBlock H ts).previousHash = "0" ∧
    isChainValid H (Blockchain.fresh H ts) = true :=
  ⟨rfl, rfl, rfl, rfl⟩

/-- C6: the digest stored at construction is recomputable: applying
`calculateHash()` to the constructed record yields exactly the stored
digest, and the digest is a deterministic function of the four preimage
fields. -/
theorem c6_digest_determinism (H : String → String) (i : Nat) (ts : String)
    (d : Payload) (ph : String) :
    (Block.make H i ts d ph).hash = calculateHash H (Block.make H i ts d ph) ∧
    ∀ b b2 : Block, b.index = b2.index → b.timestamp = b2.timestamp →
      b.data = b2.data → b.previousHash = b2.previousHash →
      calculateHash H b = calculateHash H b2 := by
  refine ⟨rfl, ?_⟩
  intro b b2 h1 h2 h3 h4
  unfold calculateHash hashInput
  rw [h1, h2, h3, h4]

/-- C7: for a position inside `0 < p < length`, the verify-certificate
handler reports AUTHENTIC exactly when the presented fingerprint equals
the fingerprint embedded in the record's payload and TAMPERED otherwise
(both as ordinary result values of `verifyRecord`), and the outcome
depends only on the record at that position and the chain length — no
chain-linkage validation is involved. -/
theorem c7_verify_content (bc : Blockchain) (p : Nat) (f : String) (b : Block)
    (h1 : 0 < p) (h2 : p < bc.chain.length) (hb : bc.chain[p]? = some b) :
    (verifyRecord bc p f = .authentic ↔ dataFileHash b.data = some f) ∧
    (verifyRecord bc p f = .tampered ↔ dataFileHash b.data ≠ some f) ∧
    (∀ bc2 : Blockchain, bc2.chain.length = bc.chain.length →
      bc2.chain[p]? = bc.chain[p]? → verifyRecord bc2 p f = verifyRecord bc p f) := by
  have hguard : ¬(p ≤ 0 ∨ p ≥ bc.chain.length) := by omega
  have he : verifyRecord bc p f =
      (match dataFileHash b.data with
       | none => VerifyResult.tampered
       | some stored =>
         if f = stored then VerifyResult.authentic else VerifyResult.tampered) := by
    unfold verifyRecord
    rw [if_neg hguard, hb]
  refine ⟨?_, ?_, ?_⟩
  · rw [he]
    match hd : dataFileHash b.data with
    | none => simp
    | some stored =>
      by_cases hf : f = stored
      · simp [hf]
      · simp [hf]
        exact fun hcontra => hf hcontra.symm
  · rw [he]
    match hd : dataFileHash b.data with
    | none => simp
    | some stored =>
      by_cases hf : f = stored
      · simp [hf]
      · simp [hf]
        exact fun hcontra => hf hcontra.symm
  · intro bc2 hlen helem
    have he2 : verifyRecord bc2 p f =
        (match dataFileHash b.data with
         | none => VerifyResult.tampered
         | some stored =>
           if f = stored then VerifyResult.authentic
           else VerifyResult.tampered) := by
      unfold verifyRecord
      rw [hlen, if_neg hguard, helem.trans hb]
    rw [he2, he]

/-- C8: the verify-certificate handler rejects any position outside
`0 < p < length` with the out-of-range outcome, for every presented
fingerprint; in particular position 0 (genesis) is always rejected. -/
theorem c8_out_of_range (bc : Blockchain) (p : Nat) (f : String)
    (h : ¬(0 < p ∧ p < bc.chain.length)) :
    verifyRecord bc p f = .positionOutOfRange ∧
    verifyRecord bc 0 f = .positionOutOfRange := by
  constructor
  · unfold verifyRecord
    rw [if_pos (by omega)]
  · unfold verifyRecord
    rw [if_pos (Or.inl (Nat.le_refl 0))]

/-- C9: `getLatestBlock()` returns the last element of the chain whenever
the chain is non-empty, and signals the empty-chain failure (JavaScript
`undefined`, modelled as `none`) when the chain has zero records. -/
theorem c9_latest (bc : Blockchain) :
    (∀ h : bc.chain ≠ [], getLatestBlock bc = some (bc.chain.getLast h)) ∧
    (bc.chain = [] → getLatestBlock bc = none) := by
  constructor
  · intro h
    show bc.chain[bc.chain.length - 1]? = some (bc.chain.getLast h)
    rw [← List.getLast?_eq_getElem? bc.chain]
    exact List.getLast?_eq_getLast bc.chain h
  · intro h
    show bc.chain[bc.chain.length - 1]? = none
    rw [h]
    rfl

/-- C10: validation never rechecks the genesis record's own digest:
replacing `records[0]`'s payload (keeping its stored digest) on any chain
that validates as valid leaves `isChainValid()` reporting valid — genesis
payload tampering is undetectable. -/
theorem c10_genesis_tamper_undetected (H : String → String) (b0 : Block)
    (rest : List Block) (p : Payload)
    (hvalid : isChainValid H ⟨b0 :: rest⟩ = true) :
    isChainValid H ⟨{ b0 with data := p } :: rest⟩ = true := by
  show validFrom H { b0 with data := p } rest = true
  rw [validFrom_hash_congr H rest { b0 with data := p } b0 rfl]
  exact hvalid

/-! ### Concrete instances

A concrete injective digest function (the identity) and sample records
built with it, used to instantiate the theorems above on explicit
inputs. -/

/-- Identity as a concrete injective stand-in for the digest function. -/
def idH : String → String := fun s => s

/-- Genesis record of the sample chain under `idH` (timestamp "t0"). -/
def sample0 : Block :=
  ⟨0, "t0", .str "Genesis Block", "0", "00t0\"Genesis Block\""⟩

/-- First appended record of the sample chain under `idH`. -/
def sample1 : Block :=
  ⟨1, "t1", .str "a", "00t0\"Genesis Block\"", "100t0\"Genesis Block\"t1\"a\""⟩

/-- Second appended record of the sample chain under `idH`. -/
def sample2 : Block :=
  ⟨2, "t2", .str "b", "100t0\"Genesis Block\"t1\"a\"",
    "2100t0\"Genesis Block\"t1\"a\"t2\"b\""⟩

/-- A sample certificate payload. -/
def sampleCert : CertData := ⟨"Alice", "Math", "MIT", "2024-01-01", "fh"⟩

/-- A record carrying `sampleCert`. -/
def sampleCertBlock : Block := ⟨1, "", .cert sampleCert, "", ""⟩

/-- A minimal single-record chain member. -/
def trivialGenesis : Block := ⟨0, "", .str "g", "0", ""⟩

theorem c1_append_invariants_witness :
    ∃ bc : Blockchain,
      appendAll idH (Blockchain.fresh idH "t0")
        [("t1", Payload.str "a"), ("t2", Payload.str "b")] = some bc ∧
      ∀ (i : Nat) (b prev : Block), 1 ≤ i →
        bc.chain[i]? = some b → bc.chain[i - 1]? = some prev →
        (b.previousHash = prev.hash ∧ b.index = i ∧
          b.hash = calculateHash idH b) :=
  c1_append_invariants idH "t0" [("t1", Payload.str "a"), ("t2", Payload.str "b")]

theorem c2_validate_chain_witness :
    (isChainValid idH ⟨[sample0, sample1, sample2]⟩ = true ↔
      ∀ i : Nat, ¬ BadAt idH (⟨[sample0, sample1, sample2]⟩ : Blockchain).chain i) ∧
    (∀ k : Nat, firstInvalidPos idH ⟨[sample0, sample1, sample2]⟩ = some k →
      BadAt idH (⟨[sample0, sample1, sample2]⟩ : Blockchain).chain k ∧
      ∀ j, j < k →
        ¬ BadAt idH (⟨[sample0, sample1, sample2]⟩ : Blockchain).chain j) ∧
    (firstInvalidPos idH ⟨[sample0, sample1, sample2]⟩ = none ↔
      isChainValid idH ⟨[sample0, sample1, sample2]⟩ = true) :=
  c2_validate_chain idH ⟨[sample0, sample1, sample2]⟩

theorem c3_payload_tamper_detected_witness :
    isChainValid idH ⟨[sample0, sample1, sample2]⟩ = true ∧
    Payload.str "c" ≠ sample1.data ∧
    (isChainValid idH
        ⟨[sample0, { sample1 with data := Payload.str "c" }, sample2]⟩ = false ∧
      firstInvalidPos idH
        ⟨[sample0, { sample1 with data := Payload.str "c" }, sample2]⟩ = some 1) :=
  ⟨by decide, by decide,
    c3_payload_tamper_detected idH (fun a b h => h) sample0 sample1 sample2
      (by decide) (Payload.str "c") (by decide)⟩

theorem c4_removal_detected_witness :
    isChainValid idH ⟨[sample0, sample1, sample2]⟩ = true ∧
    (isChainValid idH ⟨[sample0, sample2]⟩ = false ∧
      firstInvalidPos idH ⟨[sample0, sample2]⟩ = some 1) :=
  ⟨by decide,
    c4_removal_detected idH (fun a b h => h) sample0 sample1 sample2
      (by decide) (by decide) (by decide) (by decide)⟩

theorem c5_genesis_witness :
    (Blockchain.fresh idH "t0").chain = [createGenesisBlock idH "t0"] ∧
    (createGenesisBlock idH "t0").index = 0 ∧
    (createGenesisBlock idH "t0").previousHash = "0" ∧
    isChainValid idH (Blockchain.fresh idH "t0") = true :=
  c5_genesis idH "t0"

theorem c6_digest_determinism_witness :
    (Block.make idH 3 "ts" (Payload.str "x") "ph").hash =
      calculateHash idH (Block.make idH 3 "ts" (Payload.str "x") "ph") ∧
    ∀ b b2 : Block, b.index = b2.index → b.timestamp = b2.timestamp →
      b.data = b2.data → b.previousHash = b2.previousHash →
      calculateHash idH b = calculateHash idH b2 :=
  c6_digest_determinism idH 3 "ts" (Payload.str "x") "ph"

theorem c7_verify_content_witness :
    ((0 : Nat) < 1 ∧
      1 < (⟨[trivialGenesis, sampleCertBlock]⟩ : Blockchain).chain.length ∧
      (⟨[trivialGenesis, sampleCertBlock]⟩ : Blockchain).chain[1]? =
        some sampleCertBlock) ∧
    ((verifyRecord ⟨[trivialGenesis, sampleCertBlock]⟩ 1 "fh" = .authentic ↔
        dataFileHash sampleCertBlock.data = some "fh") ∧
      (verifyRecord ⟨[trivialGenesis, sampleCertBlock]⟩ 1 "fh" = .tampered ↔
        dataFileHash sampleCertBlock.data ≠ some "fh") ∧
      (∀ bc2 : Blockchain,
        bc2.chain.length =
          (⟨[trivialGenesis, sampleCertBlock]⟩ : Blockchain).chain.length →
        bc2.chain[1]? =
          (⟨[trivialGenesis, sampleCertBlock]⟩ : Blockchain).chain[1]? →
        verifyRecord bc2 1 "fh" =
          verifyRecord ⟨[trivialGenesis, sampleCertBlock]⟩ 1 "fh")) :=
  ⟨⟨by decide, by decide, by decide⟩,
    c7_verify_content ⟨[trivialGenesis, sampleCertBlock]⟩ 1 "fh"
      sampleCertBlock (by decide) (by decide) (by decide)⟩

theorem c8_out_of_range_witness :
    ¬((0 : Nat) < 5 ∧ 5 < (⟨[trivialGenesis]⟩ : Blockchain).chain.length) ∧
    (verifyRecord ⟨[trivialGenesis]⟩ 5 "x" = .positionOutOfRange ∧
      verifyRecord ⟨[trivialGenesis]⟩ 0 "x" = .positionOutOfRange) :=
  ⟨by decide, c8_out_of_range ⟨[trivialGenesis]⟩ 5 "x" (by decide)⟩

theorem c9_latest_witness :
    (∀ h : (⟨[trivialGenesis]⟩ : Blockchain).chain ≠ [],
      getLatestBlock ⟨[trivialGenesis]⟩ =
        some ((⟨[trivialGenesis]⟩ : Blockchain).chain.getLast h)) ∧
    ((⟨[trivialGenesis]⟩ : Blockchain).chain = [] →
      getLatestBlock ⟨[trivialGenesis]⟩ = none) :=
  c9_latest ⟨[trivialGenesis]⟩

theorem c10_genesis_tamper_undetected_witness :
    isChainValid idH ⟨sample0 :: [sample1, sample2]⟩ = true ∧
    isChainValid idH
      ⟨{ sample0 with data := Payload.str "evil" } :: [sample1, sample2]⟩ = true :=
  ⟨by decide,
    c10_genesis_tamper_undetected idH sample0 [sample1, sample2]
      (Payload.str "evil") (by decide)⟩

end EduVerify
